import Mathlib

/-! get-latest-s3-backup: the list / filter / download loop of `main.go`.

A shallow embedding of `src/main.go` and the properties of its run.

* Instants (`time.Time`) are integers: nanoseconds since the epoch. `UTC()` changes the
  location of a `time.Time`, never the instant, and the `now` of `main` carries no
  monotonic reading after `UTC()`, so `Sub` is the wall-clock difference.
* A `time.Duration` is an `int64` count of nanoseconds: an `Int` kept in range by the
  saturation of `Time.Sub`.
* `Duration.Hours` returns a `float64`. The three float64 operations it performs are
  modelled on rationals by `roundFloat64`, round-to-nearest-even at 53 bits of precision.
* The S3 backend, the clock and the local filesystem are the `World` of a run: what each
  external call answers. The clock is read once per run, so two runs are two worlds.
* A file name is a path that the operating system resolves: two names may denote one
  file, and a name may denote a device. The state of a run is the contents of the local
  files, each under the path it resolves to, and the trace of the external calls made so
  far. What a write does may depend on the files present.
-/

namespace S3Backup

/-! ## float64 arithmetic -/

/-- Nearest integer to `y`, ties going to the even one. -/
def roundHalfEven (y : ℚ) : ℤ :=
  let f := ⌊y⌋
  let r := y - f
  if r < 1 / 2 then f
  else if 1 / 2 < r then f + 1
  else if f % 2 = 0 then f else f + 1

/-- The float64 nearest to the rational `x` (IEEE 754 binary64, round to nearest, ties to
even): 53 significant bits, the exponent not going below that of the subnormals. Overflow
to infinity is not modelled; the values met here stay below `2^63` in magnitude. -/
def roundFloat64 (x : ℚ) : ℚ :=
  if x = 0 then 0
  else
    let e := max (Int.log 2 |x|) (-1022)
    let ulp : ℚ := 2 ^ (e - 52)
    roundHalfEven (x / ulp) * ulp

/-! ## package time -/

/-- The least `time.Duration`: `-1 << 63` nanoseconds. -/
def minDuration : Int := -9223372036854775808

/-- The greatest `time.Duration`: `1<<63 - 1` nanoseconds. -/
def maxDuration : Int := 9223372036854775807

/-- One hour, `time.Hour`, in nanoseconds. -/
def Hour : Int := 3600000000000

/-- Two's complement `int64` wrap-around of an integer. -/
def wrapInt64 (x : Int) : Int :=
  (x + 9223372036854775808) % 18446744073709551616 - 9223372036854775808

/-- Go `Time.UTC`: the same instant, with the location set to UTC. -/
def Time.UTC (t : Int) : Int := t

/-- Go `Time.Sub`: the duration `t - u`, computed in `int64` and replaced by
`minDuration` or `maxDuration` when it does not fit. -/
def Time.Sub (t u : Int) : Int :=
  let d := wrapInt64 (t - u)
  if u + d = t then d
  else if t < u then minDuration
  else maxDuration

/-- Go `Duration.Hours`: `float64(d / Hour) + float64(d % Hour) / (60*60*1e9)`, the
integer division and remainder truncating toward zero. -/
def Duration.Hours (d : Int) : ℚ :=
  let hour := Int.tdiv d Hour
  let nsec := Int.tmod d Hour
  roundFloat64 (roundFloat64 (hour : ℚ) + roundFloat64 (roundFloat64 (nsec : ℚ) / 3600000000000))

/-! ## The world of a run -/

/-- One entry of `page.Contents`: the two fields of `types.Object` that `main` reads, both
pointers that may be nil. -/
structure Object where
  Key : Option String
  LastModified : Option Int

/-- The body of a `GetObject` response, an `io.ReadCloser`: the bytes it delivers, and the
error that ends the reading when it does not end in EOF. -/
structure Stream where
  data : List UInt8
  err : Option String

/-- What the local filesystem does with an `ioutil.WriteFile` call: a regular file is
written in full; or the name denotes a device such as `/dev/null` that accepts the bytes
and keeps none; or the file cannot be opened (nothing changes); or the file is opened and
truncated and the write or the close fails after `written` bytes. -/
inductive WriteOutcome where
  | ok
  | discarded
  | openFailed (err : String)
  | writeFailed (err : String) (written : Nat)
  deriving DecidableEq

/-- What the collaborators of one run answer: the clock at the start of the run, the SDK
configuration loader, the paginator (the outcome of each successive `NextPage` call;
`HasMorePages` holds while an outcome remains), the bucket (`GetObject` by key) and the
local filesystem: the path a file name resolves to from the working directory (`a.txt` and
`./a.txt` resolve to one path), and the outcome of writing given bytes under a given name
when the files hold given contents. -/
structure World where
  now : Int
  loadConfig : Option String
  pages : List (Except String (List Object))
  GetObject : String → Except String Stream
  resolve : String → String
  WriteFile : (String → Option (List UInt8)) → String → List UInt8 → WriteOutcome

/-- An external call made by the run. -/
inductive Event where
  | NextPage
  | GetObject (key : String)
  | WriteFile (filename : String) (data : List UInt8)
  deriving DecidableEq

/-- The contents of the local files, each under the path its names resolve to, and the
calls made so far. -/
structure State where
  files : String → Option (List UInt8)
  trace : List Event

/-- How the process ends: `main` returns, or `log.Fatalf` prints the message and exits
with status 1. -/
inductive ExitStatus where
  | ok
  | fatal (msg : String)
  deriving DecidableEq

/-- The keys of the `GetObject` requests of a trace, in order: the items `downloadObject`
was called with. -/
def fetchedKeys (t : List Event) : List String :=
  t.filterMap fun e =>
    match e with
    | Event.GetObject k => some k
    | _ => none

/-! ## main.go -/

/-- Go `aws.ToString`: the string pointed to, or the empty string for nil. -/
def aws.ToString (p : Option String) : String :=
  match p with
  | some v => v
  | none => ""

/-- Go `ioutil.ReadAll`: the bytes read, and the error that stopped the reading other than
EOF. -/
def ioutil.ReadAll (stream : Stream) : List UInt8 × Option String :=
  (stream.data, stream.err)

/-- Go `ioutil.WriteFile`: open the file that `filename` resolves to for writing, creating
or truncating it, write `buf` and close. The permission bits are not part of the state. -/
def ioutil.WriteFile (w : World) (filename : String) (buf : List UInt8) (s : State) :
    Option String × State :=
  let s1 : State := ⟨s.files, s.trace ++ [Event.WriteFile filename buf]⟩
  match w.WriteFile s.files filename buf with
  | WriteOutcome.ok =>
    (none, ⟨Function.update s1.files (w.resolve filename) (some buf), s1.trace⟩)
  | WriteOutcome.discarded => (none, s1)
  | WriteOutcome.openFailed err => (some err, s1)
  | WriteOutcome.writeFailed err n =>
    (some err, ⟨Function.update s1.files (w.resolve filename) (some (buf.take n)), s1.trace⟩)

/-- The function `writeToFile` of main.go. -/
def writeToFile (w : World) (filename : String) (stream : Stream) (s : State) :
    Option String × State :=
  match ioutil.ReadAll stream with
  | (_, some err) => (some err, s)
  | (buf, none) =>
    match ioutil.WriteFile w filename buf s with
    | (some err, s1) => (some err, s1)
    | (none, s1) => (none, s1)

/-- The function `downloadObject` of main.go. -/
def downloadObject (w : World) (item : String) (s : State) : Option String × State :=
  let s1 : State := ⟨s.files, s.trace ++ [Event.GetObject item]⟩
  match w.GetObject item with
  | Except.error err => (some err, s1)
  | Except.ok body =>
    match writeToFile w item body s1 with
    | (some err, s2) => (some err, s2)
    | (none, s2) => (none, s2)

/-- The body of the inner loop of `main` (lines 51 to 65) for one object. The result of
`downloadObject` is not used. -/
def processObject (w : World) (now : Int) (obj : Object) (s : State) : State :=
  match obj.LastModified with
  | none => s
  | some t =>
    let lastModified := Time.UTC t
    let diff := Time.Sub now lastModified
    if Duration.Hours diff < 24 then (downloadObject w (aws.ToString obj.Key) s).2
    else s

/-- The inner loop of `main`: `for _, obj := range page.Contents`. -/
def rangeContents (w : World) (now : Int) : List Object → State → State
  | [], s => s
  | obj :: rest, s => rangeContents w now rest (processObject w now obj s)

/-- The outer loop of `main`: `for paginator.HasMorePages()`, over the outcomes of the
`NextPage` calls still to come. -/
def pageLoop (w : World) (now : Int) : List (Except String (List Object)) → State →
    ExitStatus × State
  | [], s => (ExitStatus.ok, s)
  | r :: rest, s =>
    let s1 : State := ⟨s.files, s.trace ++ [Event.NextPage]⟩
    match r with
    | Except.error err => (ExitStatus.fatal ("failed to get next page, " ++ err), s1)
    | Except.ok page => pageLoop w now rest (rangeContents w now page s1)

/-- The function `main` of main.go, run in the world `w` on the local files `files`. -/
def main (w : World) (files : String → Option (List UInt8)) : ExitStatus × State :=
  let now := Time.UTC w.now
  match w.loadConfig with
  | some err => (ExitStatus.fatal ("unable to load SDK config, " ++ err), ⟨files, []⟩)
  | none => pageLoop w now w.pages ⟨files, []⟩

/-! ## The specification's vocabulary -/

/-- The eligibility predicate in the words of the specification: the modification time is
present and `now - lastModified` is under 24 hours, in nanoseconds. -/
def withinLast24Hours (now : Int) (obj : Object) : Bool :=
  match obj.LastModified with
  | none => false
  | some lastModified => decide (now - lastModified < 86400000000000)

/-- What the file that `name` denotes holds in the state `s`. -/
def contentsOf (w : World) (s : State) (name : String) : Option (List UInt8) :=
  s.files (w.resolve name)

/-- A download of `item` stores the object when the files are `files`: `GetObject` answers,
the body is read to the end and the filesystem writes it in full to a regular file. -/
def stores (w : World) (item : String) (files : String → Option (List UInt8)) : Bool :=
  match w.GetObject item with
  | Except.error _ => false
  | Except.ok body =>
    match body.err with
    | some _ => false
    | none => decide (w.WriteFile files item body.data = WriteOutcome.ok)

/-- Every download that the inner loop makes over `objs` from the state `s` stores its
object. -/
def pageStores (w : World) (now : Int) : List Object → State → Bool
  | [], _ => true
  | obj :: rest, s =>
    (!withinLast24Hours now obj || stores w (aws.ToString obj.Key) s.files) &&
      pageStores w now rest (processObject w now obj s)

/-- Every download that the run makes over the pages `contents` from the state `s` stores
its object. -/
def runStores (w : World) (now : Int) : List (List Object) → State → Bool
  | [], _ => true
  | page :: rest, s =>
    pageStores w now page ⟨s.files, s.trace ++ [Event.NextPage]⟩ &&
      runStores w now rest (rangeContents w now page ⟨s.files, s.trace ++ [Event.NextPage]⟩)

/-- The calls of one download of `item`: the `GetObject` request and, when it answers and
the body is read to the end, the `WriteFile` call. -/
def downloadCalls (w : World) (item : String) : List Event :=
  Event.GetObject item ::
    match w.GetObject item with
    | Except.error _ => []
    | Except.ok body =>
      match body.err with
      | some _ => []
      | none => [Event.WriteFile item body.data]

/-- The files after the objects of the keys `items` are stored one after the other. -/
def storeAll (w : World) : List String → (String → Option (List UInt8)) →
    (String → Option (List UInt8))
  | [], files => files
  | item :: rest, files =>
    match w.GetObject item with
    | Except.error _ => storeAll w rest files
    | Except.ok body =>
      storeAll w rest (Function.update files (w.resolve item) (some body.data))

/-- A transformation of the local files that, file by file, either leaves the contents as
they were or sets them to a value that does not depend on what was there. -/
def Overwrites (F : (String → Option (List UInt8)) → (String → Option (List UInt8))) : Prop :=
  ∀ name, (∀ f, F f name = f name) ∨ (∃ v, ∀ f, F f name = v)

/-! ## Scenarios -/

/-- An empty working directory. -/
def noFiles : String → Option (List UInt8) := fun _ => none

/-- The clock of the scenarios: 2023-11-14T22:13:20Z, in nanoseconds. -/
def scenarioNow : Int := 1700000000000000000

/-- A world in which every call succeeds: every object holds the bytes 1, 2, 3, and every
file can be written. -/
def worldOf (pages : List (Except String (List Object))) : World where
  now := scenarioNow
  loadConfig := none
  pages := pages
  GetObject := fun _ => Except.ok ⟨[1, 2, 3], none⟩
  resolve := fun name => name
  WriteFile := fun _ _ _ => WriteOutcome.ok

/-- The world of `worldOf` for a run that starts when the clock reads `now`. -/
def worldAt (now : Int) (pages : List (Except String (List Object))) : World where
  now := now
  loadConfig := none
  pages := pages
  GetObject := fun _ => Except.ok ⟨[1, 2, 3], none⟩
  resolve := fun name => name
  WriteFile := fun _ _ _ => WriteOutcome.ok

/-- The object `a.txt`, modified one hour before `scenarioNow`. -/
def objA : Object := ⟨some "a.txt", some 1699996400000000000⟩

/-- The object `b.txt`, modified 48 hours before `scenarioNow`. -/
def objB : Object := ⟨some "b.txt", some 1699827200000000000⟩

/-- The object `c.txt`, with no modification time. -/
def objC : Object := ⟨some "c.txt", none⟩

/-- The object `d.txt`, modified two hours before `scenarioNow`. -/
def objD : Object := ⟨some "d.txt", some 1699992800000000000⟩

/-- A world that lists `a.txt` then `d.txt`, both recent, on one page, and whose
`GetObject` fails for `a.txt`. -/
def getFailsWorld : World where
  now := scenarioNow
  loadConfig := none
  pages := [Except.ok [objA, objD]]
  GetObject := fun k => if k = "a.txt" then Except.error "NoSuchKey" else Except.ok ⟨[1, 2, 3], none⟩
  resolve := fun name => name
  WriteFile := fun _ _ _ => WriteOutcome.ok

/-- A world whose `GetObject` succeeds and whose response body fails while it is read. -/
def readFailsWorld : World where
  now := scenarioNow
  loadConfig := none
  pages := [Except.ok [objA]]
  GetObject := fun _ => Except.ok ⟨[1, 2], some "unexpected EOF"⟩
  resolve := fun name => name
  WriteFile := fun _ _ _ => WriteOutcome.ok

/-- A world in which `./a.txt` is, as on any POSIX system, the file `a.txt` of the working
directory, and `/dev/null` is the null device. Every object holds the bytes 1, 2, 3. -/
def posixWorld : World where
  now := scenarioNow
  loadConfig := none
  pages := []
  GetObject := fun _ => Except.ok ⟨[1, 2, 3], none⟩
  resolve := fun name => if name = "./a.txt" then "a.txt" else name
  WriteFile := fun _ name _ => if name = "/dev/null" then WriteOutcome.discarded else WriteOutcome.ok

/-- The working directory with `a.txt` holding the byte 9. -/
def oldFiles : String → Option (List UInt8) :=
  Function.update noFiles "a.txt" (some [9])

/-- The length of what the file at `path` holds, 0 when there is no such file. -/
def sizeAt (files : String → Option (List UInt8)) (path : String) : Nat :=
  match files path with
  | some data => data.length
  | none => 0

/-- A world whose disk has room for 4 bytes in all, shared by `a.txt` and `d.txt`: a write
truncates its file, then stores as many bytes as the other file leaves room for. The bucket
lists `a.txt`, of 4 bytes, then `d.txt`, of 1 byte, both recent, and every backend call
succeeds. -/
def smallDiskWorld : World where
  now := scenarioNow
  loadConfig := none
  pages := [Except.ok [objA, objD]]
  GetObject := fun k => if k = "a.txt" then Except.ok ⟨[1, 2, 3, 4], none⟩ else Except.ok ⟨[5], none⟩
  resolve := fun name => name
  WriteFile := fun files name buf =>
    if buf.length ≤ 4 - sizeAt files (if name = "a.txt" then "d.txt" else "a.txt")
    then WriteOutcome.ok
    else WriteOutcome.writeFailed "no space left on device"
      (4 - sizeAt files (if name = "a.txt" then "d.txt" else "a.txt"))

/-- A full small disk: `a.txt` holds 1 byte and `d.txt` holds 3. -/
def fullDisk : String → Option (List UInt8) :=
  Function.update (Function.update noFiles "a.txt" (some [9])) "d.txt" (some [8, 8, 8])

/-! ## float64 and time lemmas -/


theorem roundHalfEven_cases (y : ℚ) :
    roundHalfEven y = ⌊y⌋ ∨ roundHalfEven y = ⌊y⌋ + 1 := by
  unfold roundHalfEven
  simp only
  split_ifs <;> simp

theorem le_roundHalfEven (n : ℤ) (y : ℚ) (h : (n : ℚ) ≤ y) : n ≤ roundHalfEven y := by
  have hf : n ≤ ⌊y⌋ := Int.le_floor.mpr h
  rcases roundHalfEven_cases y with h1 | h1 <;> omega

theorem roundHalfEven_le (n : ℤ) (y : ℚ) (h : y ≤ (n : ℚ)) : roundHalfEven y ≤ n := by
  unfold roundHalfEven
  simp only
  have hf : ⌊y⌋ ≤ n := by
    have := Int.floor_le y
    exact_mod_cast (Int.floor_le y).trans h
  rcases lt_or_eq_of_le hf with hlt | heq
  · split_ifs <;> omega
  · have hy : y = (n : ℚ) := le_antisymm h (heq ▸ Int.floor_le y)
    rw [if_pos]
    · exact hf
    · rw [hy]; simp

theorem roundHalfEven_sub_le (y : ℚ) : (roundHalfEven y : ℚ) - y ≤ 1 / 2 := by
  unfold roundHalfEven
  simp only
  have h1 := Int.floor_le y
  have h2 := Int.lt_floor_add_one y
  split_ifs with a b c
  · linarith
  · push_cast; linarith
  · linarith
  · push_cast; linarith

theorem float64_ulp_pos (e : ℤ) : (0 : ℚ) < 2 ^ e := by positivity

/-- An integer bound below a value of magnitude under 2^53 survives the rounding. -/
theorem le_roundFloat64 (n : ℤ) (x : ℚ) (hx : |x| < 2 ^ 53) (h : (n : ℚ) ≤ x) :
    (n : ℚ) ≤ roundFloat64 x := by
  unfold roundFloat64
  split_ifs with h0
  · rw [h0] at h; exact h
  · simp only
    have hpos : 0 < |x| := abs_pos.mpr h0
    have hlog : Int.log 2 |x| < 53 := by
      have := (Int.lt_zpow_iff_log_lt (R := ℚ) (b := 2) (by norm_num) (x := 53) hpos).mp
        (by exact_mod_cast hx)
      exact this
    set e := max (Int.log 2 |x|) (-1022) with he
    have he52 : e ≤ 52 := by omega
    obtain ⟨k, hk⟩ : ∃ k : ℕ, (52 - e) = k := ⟨(52 - e).toNat, by omega⟩
    have hulp : (2 : ℚ) ^ (e - 52) = 1 / 2 ^ k := by
      have : e - 52 = -(k : ℤ) := by omega
      rw [this, zpow_neg, zpow_natCast]; simp
    rw [hulp]
    have h2k : (0 : ℚ) < 2 ^ k := by positivity
    have key : n * 2 ^ k ≤ roundHalfEven (x / (1 / 2 ^ k)) := by
      apply le_roundHalfEven
      push_cast
      rw [div_div_eq_mul_div, div_one]
      exact mul_le_mul_of_nonneg_right h h2k.le
    have key2 : ((n * 2 ^ k : ℤ) : ℚ) ≤ (roundHalfEven (x / (1 / 2 ^ k)) : ℚ) := by
      exact_mod_cast key
    push_cast at key2
    rw [mul_one_div, le_div_iff₀ h2k]
    exact key2
/-- An integer bound above a value of magnitude under 2^53 survives the rounding. -/
theorem roundFloat64_le (n : ℤ) (x : ℚ) (hx : |x| < 2 ^ 53) (h : x ≤ (n : ℚ)) :
    roundFloat64 x ≤ (n : ℚ) := by
  unfold roundFloat64
  split_ifs with h0
  · rw [h0] at h; exact h
  · simp only
    have hpos : 0 < |x| := abs_pos.mpr h0
    have hlog : Int.log 2 |x| < 53 :=
      (Int.lt_zpow_iff_log_lt (R := ℚ) (b := 2) (by norm_num) (x := 53) hpos).mp
        (by exact_mod_cast hx)
    set e := max (Int.log 2 |x|) (-1022) with he
    have he52 : e ≤ 52 := by omega
    obtain ⟨k, hk⟩ : ∃ k : ℕ, (52 - e) = k := ⟨(52 - e).toNat, by omega⟩
    have hulp : (2 : ℚ) ^ (e - 52) = 1 / 2 ^ k := by
      have : e - 52 = -(k : ℤ) := by omega
      rw [this, zpow_neg, zpow_natCast]; simp
    rw [hulp]
    have h2k : (0 : ℚ) < 2 ^ k := by positivity
    have key : roundHalfEven (x / (1 / 2 ^ k)) ≤ n * 2 ^ k := by
      apply roundHalfEven_le
      push_cast
      rw [div_div_eq_mul_div, div_one]
      exact mul_le_mul_of_nonneg_right h h2k.le
    have key2 : (roundHalfEven (x / (1 / 2 ^ k)) : ℚ) ≤ ((n * 2 ^ k : ℤ) : ℚ) := by
      exact_mod_cast key
    push_cast at key2
    rw [mul_one_div, div_le_iff₀ h2k]
    exact key2

/-- Integers of magnitude under 2^53 are float64 values. -/
theorem roundFloat64_intCast (n : ℤ) (hn : |(n : ℚ)| < 2 ^ 53) : roundFloat64 (n : ℚ) = n :=
  le_antisymm (roundFloat64_le n n hn le_rfl) (le_roundFloat64 n n hn le_rfl)

/-- Rounding a value of magnitude under 2^m (m above the subnormal range) adds at most
half a unit in the last place, 2^(m-54). -/
theorem roundFloat64_sub_le (m : ℤ) (x : ℚ) (hm : -1021 ≤ m) (hx : |x| < 2 ^ m) :
    roundFloat64 x - x ≤ 2 ^ (m - 54) := by
  unfold roundFloat64
  split_ifs with h0
  · rw [h0]; simp; positivity
  · simp only
    have hpos : 0 < |x| := abs_pos.mpr h0
    have hlog : Int.log 2 |x| < m :=
      (Int.lt_zpow_iff_log_lt (R := ℚ) (b := 2) (by norm_num) (x := m) hpos).mp
        (by exact_mod_cast hx)
    set e := max (Int.log 2 |x|) (-1022) with he
    have hem : e - 52 ≤ m - 53 := by omega
    have hu : (0 : ℚ) < 2 ^ (e - 52) := by positivity
    have hule : (2 : ℚ) ^ (e - 52) ≤ 2 ^ (m - 53) :=
      zpow_le_zpow_right₀ (by norm_num) hem
    have hr := roundHalfEven_sub_le (x / 2 ^ (e - 52))
    have h1 : (roundHalfEven (x / 2 ^ (e - 52)) : ℚ) * 2 ^ (e - 52) - x
        = ((roundHalfEven (x / 2 ^ (e - 52)) : ℚ) - x / 2 ^ (e - 52)) * 2 ^ (e - 52) := by
      field_simp
    rw [h1]
    have h2 : (2 : ℚ) ^ (m - 54) = 1 / 2 * 2 ^ (m - 53) := by
      have : m - 53 = (m - 54) + 1 := by ring
      rw [this, zpow_add₀ (by norm_num : (2 : ℚ) ≠ 0)]; simp; ring
    rw [h2]
    calc ((roundHalfEven (x / 2 ^ (e - 52)) : ℚ) - x / 2 ^ (e - 52)) * 2 ^ (e - 52)
        ≤ 1 / 2 * 2 ^ (e - 52) := mul_le_mul_of_nonneg_right hr hu.le
      _ ≤ 1 / 2 * 2 ^ (m - 53) := by linarith
theorem Time.Sub_range (t u : Int) :
    minDuration ≤ Time.Sub t u ∧ Time.Sub t u ≤ maxDuration := by
  unfold Time.Sub wrapInt64 minDuration maxDuration
  simp only
  split_ifs <;> omega

theorem Time.Sub_lt_iff (t u : Int) (c : Int) (h1 : minDuration < c) (h2 : c ≤ maxDuration) :
    Time.Sub t u < c ↔ t - u < c := by
  unfold minDuration at h1
  unfold maxDuration at h2
  unfold Time.Sub wrapInt64 minDuration maxDuration
  simp only
  split_ifs <;> omega

theorem tdiv_tmod_Hour (d : Int) :
    (0 ≤ d → Int.tdiv d Hour = d / 3600000000000 ∧ Int.tmod d Hour = d % 3600000000000) ∧
    (d < 0 → Int.tdiv d Hour = -((-d) / 3600000000000) ∧
      Int.tmod d Hour = -((-d) % 3600000000000)) := by
  have hH : (0 : Int) ≤ Hour := by unfold Hour; norm_num
  constructor
  · intro h
    exact ⟨by rw [Int.tdiv_eq_ediv h hH]; rfl, by rw [Int.tmod_eq_emod h hH]; rfl⟩
  · intro h
    have hn : 0 ≤ -d := by omega
    have e1 : Int.tdiv d Hour = -((-d) / 3600000000000) := by
      have := Int.neg_tdiv (-d) Hour
      rw [neg_neg] at this
      rw [this, Int.tdiv_eq_ediv hn hH]; rfl
    refine ⟨e1, ?_⟩
    have h3 := Int.tdiv_add_tmod d Hour
    rw [e1] at h3
    have h4 : Hour = 3600000000000 := rfl
    rw [h4] at h3 ⊢
    omega

theorem Duration.Hours_lt_iff (d : Int) (hlo : minDuration ≤ d) (hhi : d ≤ maxDuration) :
    Duration.Hours d < 24 ↔ d < 86400000000000 := by
  unfold minDuration at hlo
  unfold maxDuration at hhi
  obtain ⟨hnn, hneg⟩ := tdiv_tmod_Hour d
  unfold Duration.Hours
  simp only
  generalize hh : Int.tdiv d Hour = hour at *
  generalize hs : Int.tmod d Hour = nsec at *
  have hb : -2562048 ≤ hour ∧ hour ≤ 2562048 ∧ -3600000000000 < nsec ∧ nsec < 3600000000000 := by
    rcases le_or_lt 0 d with h | h
    · obtain ⟨a, b⟩ := hnn h; omega
    · obtain ⟨a, b⟩ := hneg h; omega
  obtain ⟨hb1, hb2, hb3, hb4⟩ := hb
  have hbq1 : (-2562048 : ℚ) ≤ hour := by exact_mod_cast hb1
  have hbq2 : (hour : ℚ) ≤ 2562048 := by exact_mod_cast hb2
  have hbq3 : (-3600000000000 : ℚ) < nsec := by exact_mod_cast hb3
  have hbq4 : (nsec : ℚ) < 3600000000000 := by exact_mod_cast hb4
  have rh : roundFloat64 (hour : ℚ) = hour :=
    roundFloat64_intCast hour (by rw [abs_lt]; constructor <;> linarith)
  have rn : roundFloat64 (nsec : ℚ) = nsec :=
    roundFloat64_intCast nsec (by rw [abs_lt]; constructor <;> linarith)
  rw [rh, rn]
  have hq1 : |(nsec : ℚ) / 3600000000000| < 1 := by
    rw [abs_lt]; constructor
    · rw [lt_div_iff₀ (by norm_num)]; linarith
    · rw [div_lt_iff₀ (by norm_num)]; linarith
  have hq53 : |(nsec : ℚ) / 3600000000000| < 2 ^ 53 := lt_trans hq1 (by norm_num)
  set q := roundFloat64 ((nsec : ℚ) / 3600000000000) with hq
  have hqlo : (-1 : ℚ) ≤ q := by
    have := le_roundFloat64 (-1) _ hq53 (by push_cast; exact (abs_lt.mp hq1).1.le)
    push_cast at this; exact this
  have hqhi : q ≤ 1 := by
    have := roundFloat64_le 1 _ hq53 (by push_cast; exact (abs_lt.mp hq1).2.le)
    push_cast at this; exact this
  have hs53 : |(hour : ℚ) + q| < 2 ^ 53 := by
    rw [abs_lt]; constructor <;> norm_num <;> linarith
  rcases le_or_lt 0 d with h | h
  · obtain ⟨a, b⟩ := hnn h
    have hn0 : 0 ≤ nsec := by omega
    have hq0 : (0 : ℚ) ≤ q := by
      have := le_roundFloat64 0 _ hq53
        (by push_cast; exact div_nonneg (by exact_mod_cast hn0) (by norm_num))
      push_cast at this; exact this
    rcases le_or_lt 86400000000000 d with h24 | h24
    · have hh24 : 24 ≤ hour := by omega
      have : ((24 : ℤ) : ℚ) ≤ roundFloat64 ((hour : ℚ) + q) := by
        apply le_roundFloat64 24 _ hs53
        have : ((24 : ℤ) : ℚ) ≤ hour := by exact_mod_cast hh24
        linarith
      constructor
      · intro hc; push_cast at this; linarith
      · intro hc; omega
    · have hh23 : hour ≤ 23 := by omega
      have hh0 : 0 ≤ hour := by omega
      have hhq23 : (hour : ℚ) ≤ 23 := by exact_mod_cast hh23
      have hhq0 : (0 : ℚ) ≤ hour := by exact_mod_cast hh0
      have hn1 : nsec ≤ 3599999999999 := by omega
      have hnq1 : (nsec : ℚ) ≤ 3599999999999 := by exact_mod_cast hn1
      have e1 := roundFloat64_sub_le 0 ((nsec : ℚ) / 3600000000000) (by norm_num)
        (by simpa using hq1)
      rw [← hq] at e1
      have hdiv : (nsec : ℚ) / 3600000000000 ≤ 3599999999999 / 3600000000000 := by
        apply div_le_div_of_nonneg_right hnq1 (by norm_num)
      have hs5 : |(hour : ℚ) + q| < 2 ^ (5 : ℤ) := by
        rw [abs_lt]; constructor <;> norm_num <;> linarith
      have e2 := roundFloat64_sub_le 5 ((hour : ℚ) + q) (by norm_num) hs5
      constructor
      · intro _; exact h24
      · intro _
        norm_num at e1 e2
        have : (3599999999999 : ℚ) / 3600000000000 + 1 / 18014398509481984
            + 1 / 562949953421312 < 1 := by norm_num
        linarith
  · obtain ⟨a, b⟩ := hneg h
    have hn0 : nsec ≤ 0 := by omega
    have hh0 : hour ≤ 0 := by omega
    have hhq0 : (hour : ℚ) ≤ 0 := by exact_mod_cast hh0
    have hq0 : q ≤ (0 : ℚ) := by
      have := roundFloat64_le 0 _ hq53
        (by push_cast; exact div_nonpos_of_nonpos_of_nonneg (by exact_mod_cast hn0) (by norm_num))
      push_cast at this; exact this
    have : roundFloat64 ((hour : ℚ) + q) ≤ ((0 : ℤ) : ℚ) :=
      roundFloat64_le 0 _ hs53 (by push_cast; linarith)
    constructor
    · intro _; omega
    · intro _; push_cast at this; linarith


/-! ## The loop body against the specification's predicate -/

theorem processObject_eq (w : World) (now : Int) (obj : Object) (s : State) :
    processObject w now obj s =
      if withinLast24Hours now obj = true
      then (downloadObject w (aws.ToString obj.Key) s).2 else s := by
  unfold processObject withinLast24Hours
  cases obj.LastModified with
  | none => simp
  | some t =>
    simp only [Time.UTC, decide_eq_true_eq]
    have hr := Time.Sub_range now t
    have h1 := Duration.Hours_lt_iff (Time.Sub now t) hr.1 hr.2
    have h2 := Time.Sub_lt_iff now t 86400000000000 (by unfold minDuration; norm_num)
      (by unfold maxDuration; norm_num)
    by_cases h : now - t < 86400000000000
    · rw [if_pos (h1.mpr (h2.mpr h)), if_pos h]
    · rw [if_neg (fun hc => h (h2.mp (h1.mp hc))), if_neg h]


/-! ## Effects of the steps -/

theorem Overwrites.id : Overwrites (fun f => f) :=
  fun _ => Or.inl fun _ => rfl

theorem Overwrites.update (name : String) (v : Option (List UInt8)) :
    Overwrites (fun f => Function.update f name v) := by
  intro n
  by_cases h : n = name
  · right; exact ⟨v, fun f => by rw [h]; simp⟩
  · left; intro f; simp [Function.update, h]

theorem Overwrites.comp {F G : (String → Option (List UInt8)) → (String → Option (List UInt8))}
    (hF : Overwrites F) (hG : Overwrites G) : Overwrites (fun f => G (F f)) := by
  intro n
  rcases hG n with hg | ⟨v, hv⟩
  · rcases hF n with hf | ⟨v, hv⟩
    · left; intro f; show G (F f) n = f n; rw [hg, hf]
    · right; exact ⟨v, fun f => by show G (F f) n = v; rw [hg, hv]⟩
  · right; exact ⟨v, fun f => hv _⟩

theorem Overwrites.idempotent {F : (String → Option (List UInt8)) → (String → Option (List UInt8))}
    (hF : Overwrites F) (f : String → Option (List UInt8)) : F (F f) = F f := by
  funext n
  rcases hF n with hf | ⟨v, hv⟩
  · rw [hf]
  · rw [hv, hv]

/-! ## The trace of the loops -/

theorem fetchedKeys_append (a b : List Event) :
    fetchedKeys (a ++ b) = fetchedKeys a ++ fetchedKeys b := by
  unfold fetchedKeys
  exact List.filterMap_append _ _ _

theorem downloadObject_fetchedKeys (w : World) (item : String) (s : State) :
    fetchedKeys (downloadObject w item s).2.trace = fetchedKeys s.trace ++ [item] := by
  unfold downloadObject writeToFile ioutil.ReadAll ioutil.WriteFile
  cases w.GetObject item with
  | error err => simp [fetchedKeys]
  | ok body =>
    obtain ⟨data, err⟩ := body
    cases err with
    | some e => simp [fetchedKeys]
    | none =>
      cases hw : w.WriteFile s.files item data <;> simp [hw, fetchedKeys]

theorem rangeContents_append (w : World) (now : Int) (a b : List Object) (s : State) :
    rangeContents w now (a ++ b) s = rangeContents w now b (rangeContents w now a s) := by
  induction a generalizing s with
  | nil => rfl
  | cons o rest ih => exact ih _

theorem rangeContents_fetchedKeys (w : World) (now : Int) (objs : List Object) (s : State) :
    fetchedKeys (rangeContents w now objs s).trace =
      fetchedKeys s.trace ++
        (objs.filter (withinLast24Hours now)).map (fun o => aws.ToString o.Key) := by
  induction objs generalizing s with
  | nil => simp [rangeContents]
  | cons o rest ih =>
    rw [rangeContents, ih, processObject_eq]
    by_cases he : withinLast24Hours now o = true
    · simp [he, downloadObject_fetchedKeys]
    · simp [he]

theorem pageLoop_ok_pages (w : World) (now : Int) (contents : List (List Object))
    (rest : List (Except String (List Object))) (s : State) :
    (pageLoop w now (contents.map Except.ok) s).1 = ExitStatus.ok ∧
    pageLoop w now (contents.map Except.ok ++ rest) s =
      pageLoop w now rest (pageLoop w now (contents.map Except.ok) s).2 := by
  induction contents generalizing s with
  | nil => exact ⟨rfl, rfl⟩
  | cons page more ih =>
    simp only [List.map_cons, List.cons_append, pageLoop]
    exact ih _

theorem pageLoop_fetchedKeys (w : World) (now : Int) (contents : List (List Object))
    (s : State) :
    fetchedKeys (pageLoop w now (contents.map Except.ok) s).2.trace =
      fetchedKeys s.trace ++
        (contents.flatten.filter (withinLast24Hours now)).map (fun o => aws.ToString o.Key) := by
  induction contents generalizing s with
  | nil => simp [pageLoop]
  | cons page more ih =>
    simp only [List.map_cons, pageLoop, ih, rangeContents_fetchedKeys, fetchedKeys_append,
      List.flatten_cons, List.filter_append, List.map_append, List.append_assoc]
    simp [fetchedKeys]

/-! ## The loops use only the bucket and the filesystem of the world -/

theorem rangeContents_pages (w : World) (pages : List (Except String (List Object))) (now : Int)
    (objs : List Object) (s : State) :
    rangeContents { w with pages := pages } now objs s = rangeContents w now objs s := by
  induction objs generalizing s with
  | nil => rfl
  | cons o rest ih =>
    simp only [rangeContents]
    rw [ih]
    rfl

theorem pageLoop_pages (w : World) (pages : List (Except String (List Object))) (now : Int)
    (rs : List (Except String (List Object))) (s : State) :
    pageLoop { w with pages := pages } now rs s = pageLoop w now rs s := by
  induction rs generalizing s with
  | nil => rfl
  | cons r rest ih =>
    cases r with
    | error err => rfl
    | ok page => simp only [pageLoop, rangeContents_pages, ih]

theorem main_pages (w : World) (pages : List (Except String (List Object)))
    (files : String → Option (List UInt8)) :
    main { w with pages := pages } files =
      match w.loadConfig with
      | some err => (ExitStatus.fatal ("unable to load SDK config, " ++ err), ⟨files, []⟩)
      | none => pageLoop w w.now pages ⟨files, []⟩ := by
  unfold main
  simp only [Time.UTC]
  rw [pageLoop_pages]

theorem pageLoop_append (w : World) (now : Int) (a b : List (Except String (List Object)))
    (s : State) :
    pageLoop w now (a ++ b) s =
      if (pageLoop w now a s).1 = ExitStatus.ok then pageLoop w now b (pageLoop w now a s).2
      else pageLoop w now a s := by
  induction a generalizing s with
  | nil => simp [pageLoop]
  | cons r rest ih =>
    cases r with
    | error err => simp [pageLoop]
    | ok page =>
      simp only [List.cons_append, pageLoop]
      exact ih _


/-! ## The calls and the files of a run whose downloads store their objects -/

theorem downloadObject_trace (w : World) (item : String) (s : State) :
    (downloadObject w item s).2.trace = s.trace ++ downloadCalls w item := by
  unfold downloadObject writeToFile ioutil.ReadAll ioutil.WriteFile downloadCalls
  cases w.GetObject item with
  | error err => rfl
  | ok body =>
    obtain ⟨data, err⟩ := body
    cases err with
    | some e => rfl
    | none => cases hw : w.WriteFile s.files item data <;> simp [hw]

theorem downloadObject_files_of_stores (w : World) (item : String) (s : State)
    (h : stores w item s.files = true) :
    (downloadObject w item s).1 = none ∧
    (downloadObject w item s).2.files = storeAll w [item] s.files := by
  unfold stores at h
  unfold downloadObject writeToFile ioutil.ReadAll ioutil.WriteFile storeAll storeAll
  cases hg : w.GetObject item with
  | error err => simp [hg] at h
  | ok body =>
    obtain ⟨data, err⟩ := body
    cases err with
    | some e => simp [hg] at h
    | none =>
      simp only [hg, decide_eq_true_eq] at h
      simp [h]

theorem storeAll_append (w : World) (a b : List String) (files : String → Option (List UInt8)) :
    storeAll w (a ++ b) files = storeAll w b (storeAll w a files) := by
  induction a generalizing files with
  | nil => rfl
  | cons item rest ih =>
    simp only [List.cons_append, storeAll]
    cases w.GetObject item with
    | error err => exact ih _
    | ok body => exact ih _

theorem storeAll_overwrites (w : World) (items : List String) : Overwrites (storeAll w items) := by
  induction items with
  | nil => exact Overwrites.id
  | cons item rest ih =>
    cases hg : w.GetObject item with
    | error err =>
      have : storeAll w (item :: rest) = storeAll w rest := by
        funext files; simp only [storeAll, hg]
      rw [this]; exact ih
    | ok body =>
      have : storeAll w (item :: rest) =
          fun f => storeAll w rest (Function.update f (w.resolve item) (some body.data)) := by
        funext files; simp only [storeAll, hg]
      rw [this]
      exact (Overwrites.update (w.resolve item) (some body.data)).comp ih

theorem storeAll_congr (w1 w2 : World) (hbucket : w2.GetObject = w1.GetObject)
    (hresolve : w2.resolve = w1.resolve) (items : List String)
    (files : String → Option (List UInt8)) :
    storeAll w2 items files = storeAll w1 items files := by
  induction items generalizing files with
  | nil => rfl
  | cons item rest ih =>
    simp only [storeAll, hbucket, hresolve]
    cases w1.GetObject item with
    | error err => exact ih _
    | ok body => exact ih _

theorem rangeContents_files (w : World) (now : Int) (objs : List Object) (s : State)
    (h : pageStores w now objs s = true) :
    (rangeContents w now objs s).files =
      storeAll w ((objs.filter (withinLast24Hours now)).map (fun o => aws.ToString o.Key))
        s.files := by
  induction objs generalizing s with
  | nil => rfl
  | cons o rest ih =>
    simp only [pageStores, Bool.and_eq_true, Bool.or_eq_true, Bool.not_eq_true_eq_eq_false] at h
    obtain ⟨h1, h2⟩ := h
    rw [rangeContents, ih _ h2, processObject_eq]
    by_cases he : withinLast24Hours now o = true
    · have hs : stores w (aws.ToString o.Key) s.files = true := by
        rcases h1 with h1 | h1
        · rw [he] at h1; cases h1
        · exact h1
      rw [if_pos he, (downloadObject_files_of_stores w _ s hs).2, List.filter_cons_of_pos he,
        List.map_cons]
      exact (storeAll_append w [aws.ToString o.Key] _ s.files).symm
    · rw [if_neg he, List.filter_cons_of_neg he]

theorem pageLoop_files (w : World) (now : Int) (contents : List (List Object)) (s : State)
    (h : runStores w now contents s = true) :
    (pageLoop w now (contents.map Except.ok) s).2.files =
      storeAll w
        ((contents.flatten.filter (withinLast24Hours now)).map (fun o => aws.ToString o.Key))
        s.files := by
  induction contents generalizing s with
  | nil => rfl
  | cons page more ih =>
    simp only [runStores, Bool.and_eq_true] at h
    obtain ⟨h1, h2⟩ := h
    simp only [List.map_cons, pageLoop, ih _ h2, rangeContents_files w now page _ h1,
      List.flatten_cons, List.filter_append, List.map_append, storeAll_append]

theorem rangeContents_trace_congr (w1 w2 : World) (now1 now2 : Int)
    (hbucket : w2.GetObject = w1.GetObject) (objs : List Object)
    (hclock : ∀ o ∈ objs, withinLast24Hours now2 o = withinLast24Hours now1 o) :
    ∃ calls, ∀ s : State, (rangeContents w1 now1 objs s).trace = s.trace ++ calls ∧
      (rangeContents w2 now2 objs s).trace = s.trace ++ calls := by
  induction objs with
  | nil => exact ⟨[], fun s => by simp [rangeContents]⟩
  | cons o rest ih =>
    obtain ⟨calls, hcalls⟩ := ih (fun p hp => hclock p (List.mem_cons_of_mem _ hp))
    have ho := hclock o (List.mem_cons_self _ _)
    have hd : downloadCalls w2 (aws.ToString o.Key) = downloadCalls w1 (aws.ToString o.Key) := by
      unfold downloadCalls; rw [hbucket]
    by_cases he : withinLast24Hours now1 o = true
    · refine ⟨downloadCalls w1 (aws.ToString o.Key) ++ calls, fun s => ?_⟩
      simp only [rangeContents, processObject_eq, ho, he, if_true, (hcalls _).1, (hcalls _).2,
        downloadObject_trace, hd, List.append_assoc, and_self]
    · refine ⟨calls, fun s => ?_⟩
      simp only [rangeContents, processObject_eq, ho, he, if_false, (hcalls _).1, (hcalls _).2,
        and_self]
      simp

theorem pageLoop_trace_congr (w1 w2 : World) (now1 now2 : Int)
    (hbucket : w2.GetObject = w1.GetObject) (contents : List (List Object))
    (hclock : ∀ o ∈ contents.flatten, withinLast24Hours now2 o = withinLast24Hours now1 o) :
    ∃ calls, ∀ s : State,
      (pageLoop w1 now1 (contents.map Except.ok) s).2.trace = s.trace ++ calls ∧
      (pageLoop w2 now2 (contents.map Except.ok) s).2.trace = s.trace ++ calls := by
  induction contents with
  | nil => exact ⟨[], fun s => by simp [pageLoop]⟩
  | cons page more ih =>
    obtain ⟨calls, hcalls⟩ := ih (fun p hp => hclock p (by
      rw [List.flatten_cons]; exact List.mem_append_right _ hp))
    obtain ⟨pc, hpc⟩ := rangeContents_trace_congr w1 w2 now1 now2 hbucket page
      (fun p hp => hclock p (by rw [List.flatten_cons]; exact List.mem_append_left _ hp))
    refine ⟨Event.NextPage :: (pc ++ calls), fun s => ?_⟩
    simp only [List.map_cons, pageLoop, (hcalls _).1, (hcalls _).2, (hpc _).1, (hpc _).2,
      List.append_assoc, List.singleton_append, List.cons_append, List.nil_append, and_self]

/-! ## The claims -/

/-- C2. When the configuration loads and every page is listed without error, the run ends
normally and the keys passed to `downloadObject`, in order, are those of the objects of the
pages, page after page and in the order within each page, that have a modification time
less than 24 hours before `now`: each such object once, and no other. -/
theorem main_fetches_eligible_in_order (w : World) (files : String → Option (List UInt8))
    (contents : List (List Object)) (hcfg : w.loadConfig = none)
    (hpages : w.pages = contents.map Except.ok) :
    (main w files).1 = ExitStatus.ok ∧
    fetchedKeys (main w files).2.trace =
      (contents.flatten.filter (withinLast24Hours w.now)).map (fun o => aws.ToString o.Key) := by
  unfold main
  simp only [hcfg, hpages, Time.UTC]
  refine ⟨(pageLoop_ok_pages w w.now contents [] _).1, ?_⟩
  rw [pageLoop_fetchedKeys]
  simp [fetchedKeys]

/-- C2, witness: two pages of one recent object each give two downloads, one per page, in
page order. -/
theorem main_fetches_eligible_in_order_witness :
    (worldOf [Except.ok [objA], Except.ok [objD]]).loadConfig = none ∧
    (main (worldOf [Except.ok [objA], Except.ok [objD]]) noFiles).1 = ExitStatus.ok ∧
    fetchedKeys (main (worldOf [Except.ok [objA], Except.ok [objD]]) noFiles).2.trace =
      ["a.txt", "d.txt"] := by
  have h := main_fetches_eligible_in_order (worldOf [Except.ok [objA], Except.ok [objD]])
    noFiles [[objA], [objD]] rfl rfl
  refine ⟨rfl, h.1, ?_⟩
  rw [h.2]
  simp [worldOf, scenarioNow, objA, objD, withinLast24Hours, aws.ToString]

/-- C1, at the failing input. `GetObject` fails for `a.txt`, the first of two recent
objects of a page: `downloadObject` returns the error, `main` does not look at it, requests
`d.txt` next and writes it, and the run ends normally. -/
theorem main_continues_after_failed_download :
    (downloadObject getFailsWorld "a.txt" ⟨noFiles, [Event.NextPage]⟩).1 = some "NoSuchKey" ∧
    (main getFailsWorld noFiles).1 = ExitStatus.ok ∧
    (main getFailsWorld noFiles).2.trace =
      [Event.NextPage, Event.GetObject "a.txt", Event.GetObject "d.txt",
        Event.WriteFile "d.txt" [1, 2, 3]] ∧
    (main getFailsWorld noFiles).2.files "d.txt" = some [1, 2, 3] := by
  have ha : withinLast24Hours scenarioNow objA = true := by
    simp [withinLast24Hours, objA, scenarioNow]
  have hd : withinLast24Hours scenarioNow objD = true := by
    simp [withinLast24Hours, objD, scenarioNow]
  have hka : aws.ToString objA.Key = "a.txt" := rfl
  have hkd : aws.ToString objD.Key = "d.txt" := rfl
  simp [main, getFailsWorld, pageLoop, rangeContents, processObject_eq, Time.UTC, ha, hd,
    hka, hkd, downloadObject, writeToFile, ioutil.ReadAll, ioutil.WriteFile]

/-- C3. For an object with a modification time, the test of `main`,
`now.Sub(lastModified).Hours() < 24`, holds exactly when `now - lastModified` is under
86,400,000,000,000 ns. The loop body then calls `downloadObject` with the key of the
object, and otherwise leaves the files and the trace as they were: no request, no write.
At exactly 24 hours nothing happens; one nanosecond short of 24 hours the object is
fetched. -/
theorem strict_24_hour_boundary (w : World) (now : Int) (key : Option String) (lm : Int)
    (s : State) :
    (Duration.Hours (Time.Sub now (Time.UTC lm)) < 24 ↔ now - lm < 86400000000000) ∧
    (processObject w now ⟨key, some lm⟩ s = s ↔ 86400000000000 ≤ now - lm) ∧
    (now - lm < 86400000000000 →
      processObject w now ⟨key, some lm⟩ s = (downloadObject w (aws.ToString key) s).2 ∧
      fetchedKeys (processObject w now ⟨key, some lm⟩ s).trace =
        fetchedKeys s.trace ++ [aws.ToString key]) ∧
    processObject w now ⟨key, some (now - 86400000000000)⟩ s = s ∧
    fetchedKeys (processObject w now ⟨key, some (now - 86399999999999)⟩ s).trace =
      fetchedKeys s.trace ++ [aws.ToString key] := by
  have hr := Time.Sub_range now lm
  have h1 := Duration.Hours_lt_iff (Time.Sub now lm) hr.1 hr.2
  have h2 := Time.Sub_lt_iff now lm 86400000000000 (by unfold minDuration; norm_num)
    (by unfold maxDuration; norm_num)
  have hin : ∀ t : Int, now - t < 86400000000000 →
      processObject w now ⟨key, some t⟩ s = (downloadObject w (aws.ToString key) s).2 := by
    intro t ht
    rw [processObject_eq]
    simp [withinLast24Hours, ht]
  have hout : ∀ t : Int, 86400000000000 ≤ now - t → processObject w now ⟨key, some t⟩ s = s := by
    intro t ht
    rw [processObject_eq]
    simp [withinLast24Hours, not_lt.mpr ht]
  refine ⟨by simpa [Time.UTC] using h1.trans h2, ⟨fun h => ?_, hout lm⟩, fun h => ?_, ?_, ?_⟩
  · by_contra hc
    have hk := congrArg (fun x => (fetchedKeys x.trace).length) (hin lm (not_le.mp hc))
    simp only [h, downloadObject_fetchedKeys, List.length_append, List.length_singleton] at hk
    omega
  · rw [hin lm h]
    exact ⟨rfl, downloadObject_fetchedKeys _ _ _⟩
  · exact hout _ (by omega)
  · rw [hin _ (by omega)]
    exact downloadObject_fetchedKeys _ _ _

/-- C10. An object whose modification time is later than `now` passes the test of `main`
however far in the future it is, and `downloadObject` is called with its key. -/
theorem future_dated_object_is_downloaded (w : World) (now : Int) (key : Option String)
    (lm : Int) (s : State) (hfuture : now < lm) :
    Duration.Hours (Time.Sub now (Time.UTC lm)) < 24 ∧
    withinLast24Hours now ⟨key, some lm⟩ = true ∧
    processObject w now ⟨key, some lm⟩ s = (downloadObject w (aws.ToString key) s).2 ∧
    fetchedKeys (processObject w now ⟨key, some lm⟩ s).trace =
      fetchedKeys s.trace ++ [aws.ToString key] := by
  have hr := Time.Sub_range now lm
  have h1 := Duration.Hours_lt_iff (Time.Sub now lm) hr.1 hr.2
  have h2 := Time.Sub_lt_iff now lm 86400000000000 (by unfold minDuration; norm_num)
    (by unfold maxDuration; norm_num)
  have hlt : now - lm < 86400000000000 := by omega
  have he : withinLast24Hours now ⟨key, some lm⟩ = true := by
    simp [withinLast24Hours, hlt]
  have hp : processObject w now ⟨key, some lm⟩ s = (downloadObject w (aws.ToString key) s).2 := by
    rw [processObject_eq, if_pos he]
  refine ⟨by simpa [Time.UTC] using h1.mpr (h2.mpr hlt), he, hp, ?_⟩
  rw [hp]
  exact downloadObject_fetchedKeys _ _ _

/-- C10, witness: an object dated 400 years after `now`, beyond the range of a
`time.Duration`, is fetched. -/
theorem future_dated_object_is_downloaded_witness :
    scenarioNow < scenarioNow + 12622780800000000000 ∧
    fetchedKeys (processObject (worldOf []) scenarioNow
      ⟨some "later.bak", some (scenarioNow + 12622780800000000000)⟩ ⟨noFiles, []⟩).trace =
      ["later.bak"] := by
  have h := future_dated_object_is_downloaded (worldOf []) scenarioNow (some "later.bak")
    (scenarioNow + 12622780800000000000) ⟨noFiles, []⟩ (by omega)
  refine ⟨by omega, ?_⟩
  rw [h.2.2.2]
  simp [fetchedKeys, aws.ToString]

/-- C4. An object without a modification time is passed over by the loop body, which
leaves the files and the trace untouched, and the whole run (exit status, files, calls) is
the run on the listing without that object. When the configuration loads and every page is
listed without error, the run ends normally. -/
theorem object_without_timestamp_is_skipped (w : World) (files : String → Option (List UInt8))
    (before after : List (Except String (List Object))) (pre post : List Object) (o : Object)
    (hnone : o.LastModified = none) :
    (∀ now s, processObject w now o s = s) ∧
    main { w with pages := before ++ Except.ok (pre ++ o :: post) :: after } files =
      main { w with pages := before ++ Except.ok (pre ++ post) :: after } files ∧
    (w.loadConfig = none →
      ∀ bs cs : List (List Object), before = bs.map Except.ok → after = cs.map Except.ok →
        (main { w with pages := before ++ Except.ok (pre ++ o :: post) :: after } files).1 =
          ExitStatus.ok) := by
  have hskip : ∀ now s, processObject w now o s = s := by
    intro now s
    unfold processObject
    rw [hnone]
  have hpage : ∀ now s, rangeContents w now (pre ++ o :: post) s =
      rangeContents w now (pre ++ post) s := by
    intro now s
    rw [rangeContents_append, rangeContents_append]
    simp only [rangeContents, hskip]
  refine ⟨hskip, ?_, ?_⟩
  · rw [main_pages, main_pages]
    cases w.loadConfig with
    | some err => rfl
    | none =>
      simp only
      rw [pageLoop_append, pageLoop_append w w.now before]
      simp only [pageLoop, hpage]
  · intro hcfg bs cs hb hc
    rw [main_pages, hcfg, hb, hc]
    simp only
    have : (List.map Except.ok bs ++ Except.ok (pre ++ o :: post) :: List.map Except.ok cs :
        List (Except String (List Object)))
        = List.map Except.ok (bs ++ (pre ++ o :: post) :: cs) := by simp
    rw [this]
    exact (pageLoop_ok_pages w w.now _ [] _).1

/-- C4, witness: `a.txt` (1 hour old), `b.txt` (48 hours old) and `c.txt` (no modification
time) on one page give one download, of `a.txt`, and the run ends normally, as it does
without `c.txt`. -/
theorem object_without_timestamp_is_skipped_witness :
    objC.LastModified = none ∧
    main (worldOf [Except.ok [objA, objB, objC]]) noFiles =
      main (worldOf [Except.ok [objA, objB]]) noFiles ∧
    (main (worldOf [Except.ok [objA, objB, objC]]) noFiles).1 = ExitStatus.ok ∧
    (main (worldOf [Except.ok [objA, objB, objC]]) noFiles).2.trace =
      [Event.NextPage, Event.GetObject "a.txt", Event.WriteFile "a.txt" [1, 2, 3]] := by
  have h := object_without_timestamp_is_skipped (worldOf []) noFiles [] [] [objA, objB] []
    objC rfl
  have ha : withinLast24Hours scenarioNow objA = true := by
    simp [withinLast24Hours, objA, scenarioNow]
  have hb : withinLast24Hours scenarioNow objB = false := by
    simp [withinLast24Hours, objB, scenarioNow]
  have hc : withinLast24Hours scenarioNow objC = false := rfl
  have hka : aws.ToString objA.Key = "a.txt" := rfl
  refine ⟨rfl, h.2.1, h.2.2 rfl [] [] rfl rfl, ?_⟩
  simp [main, worldOf, pageLoop, rangeContents, processObject_eq, Time.UTC, ha, hb, hc,
    hka, downloadObject, writeToFile, ioutil.ReadAll, ioutil.WriteFile]

/-- C5. When the configuration loads, the pages before page k are listed without error and
the request for page k fails, the run ends in `log.Fatalf` with the files as the pages
before k left them and, after the calls made for those pages, the one failed `NextPage`
request and nothing more, whatever the paginator would have answered afterwards. -/
theorem main_aborts_on_listing_failure (w : World) (files : String → Option (List UInt8))
    (contents : List (List Object)) (err : String) (rest : List (Except String (List Object)))
    (hcfg : w.loadConfig = none)
    (hpages : w.pages = contents.map Except.ok ++ Except.error err :: rest) :
    main w files =
      (ExitStatus.fatal ("failed to get next page, " ++ err),
        ⟨(main { w with pages := contents.map Except.ok } files).2.files,
          (main { w with pages := contents.map Except.ok } files).2.trace ++
            [Event.NextPage]⟩) := by
  have hL : main w files = pageLoop w w.now w.pages ⟨files, []⟩ := by
    unfold main
    simp only [hcfg, Time.UTC]
  rw [main_pages w (contents.map Except.ok) files, hL, hpages,
    (pageLoop_ok_pages w w.now contents _ _).2]
  simp only [hcfg]
  rfl

/-- C5, witness: the second of three page requests fails; `a.txt` of the first page is
downloaded, `d.txt` of the third page is not, and two list requests are made. -/
theorem main_aborts_on_listing_failure_witness :
    (worldOf [Except.ok [objA], Except.error "RequestTimeout", Except.ok [objD]]).loadConfig
      = none ∧
    (main (worldOf [Except.ok [objA], Except.error "RequestTimeout", Except.ok [objD]])
      noFiles).1 = ExitStatus.fatal "failed to get next page, RequestTimeout" ∧
    (main (worldOf [Except.ok [objA], Except.error "RequestTimeout", Except.ok [objD]])
      noFiles).2.trace =
      [Event.NextPage, Event.GetObject "a.txt", Event.WriteFile "a.txt" [1, 2, 3],
        Event.NextPage] := by
  have h := main_aborts_on_listing_failure
    (worldOf [Except.ok [objA], Except.error "RequestTimeout", Except.ok [objD]]) noFiles
    [[objA]] "RequestTimeout" [Except.ok [objD]] rfl rfl
  have ha : withinLast24Hours scenarioNow objA = true := by
    simp [withinLast24Hours, objA, scenarioNow]
  have hka : aws.ToString objA.Key = "a.txt" := rfl
  rw [h]
  refine ⟨rfl, rfl, ?_⟩
  simp [main, worldOf, pageLoop, rangeContents, processObject_eq, Time.UTC, ha,
    hka, downloadObject, writeToFile, ioutil.ReadAll, ioutil.WriteFile]

/-- C6, as stated, fails. The key `./a.txt` is not the name `a.txt`, yet a successful
download of it replaces the byte 9 that `a.txt` held by the bytes of the object: the two
names denote one file. And a successful download of the key `/dev/null` leaves no file
holding the bytes of the object. -/
theorem downloadObject_changes_other_name :
    (downloadObject posixWorld "./a.txt" ⟨oldFiles, []⟩).1 = none ∧
    "a.txt" ≠ "./a.txt" ∧
    contentsOf posixWorld ⟨oldFiles, []⟩ "a.txt" = some [9] ∧
    contentsOf posixWorld (downloadObject posixWorld "./a.txt" ⟨oldFiles, []⟩).2 "a.txt" =
      some [1, 2, 3] ∧
    (downloadObject posixWorld "/dev/null" ⟨oldFiles, []⟩).1 = none ∧
    posixWorld.GetObject "/dev/null" = Except.ok ⟨[1, 2, 3], none⟩ ∧
    contentsOf posixWorld (downloadObject posixWorld "/dev/null" ⟨oldFiles, []⟩).2 "/dev/null" =
      none ∧
    ¬ ∀ (w : World) (key : String) (s s1 : State), downloadObject w key s = (none, s1) →
        ∃ body, w.GetObject key = Except.ok body ∧ contentsOf w s1 key = some body.data ∧
          ∀ name, name ≠ key → contentsOf w s1 name = contentsOf w s name := by
  have h1 : (downloadObject posixWorld "./a.txt" ⟨oldFiles, []⟩).1 = none := by
    simp [downloadObject, writeToFile, ioutil.ReadAll, ioutil.WriteFile, posixWorld]
  have h2 : contentsOf posixWorld (downloadObject posixWorld "./a.txt" ⟨oldFiles, []⟩).2
      "a.txt" = some [1, 2, 3] := by
    simp [contentsOf, downloadObject, writeToFile, ioutil.ReadAll, ioutil.WriteFile, posixWorld]
  have h3 : contentsOf posixWorld ⟨oldFiles, []⟩ "a.txt" = some [9] := by
    simp [contentsOf, posixWorld, oldFiles]
  refine ⟨h1, by decide, h3, h2, ?_, rfl, ?_, fun h => ?_⟩
  · simp [downloadObject, writeToFile, ioutil.ReadAll, ioutil.WriteFile, posixWorld]
  · simp [contentsOf, downloadObject, writeToFile, ioutil.ReadAll, ioutil.WriteFile, posixWorld,
      oldFiles, noFiles, Function.update]
  · obtain ⟨body, _, _, hframe⟩ := h posixWorld "./a.txt" ⟨oldFiles, []⟩
      (downloadObject posixWorld "./a.txt" ⟨oldFiles, []⟩).2 (by rw [← h1])
    have := hframe "a.txt" (by decide)
    rw [h2, h3] at this
    simp at this

/-- C6, amended. When `downloadObject` returns nil for a key, `GetObject` answered with a
body that was read to the end, and either the key, taken as it is, denotes a regular file,
which then holds the bytes of that body whatever it held before, while every other file
holds what it held, so that a name keeps its contents when it denotes another file than the
key does; or the key denotes a device and no file has changed. -/
theorem downloadObject_success_writes_denoted_file (w : World) (key : String) (s s1 : State)
    (hok : downloadObject w key s = (none, s1)) :
    ∃ body, w.GetObject key = Except.ok body ∧ body.err = none ∧
      ((w.WriteFile s.files key body.data = WriteOutcome.ok ∧
          contentsOf w s1 key = some body.data ∧
          (∀ path, path ≠ w.resolve key → s1.files path = s.files path) ∧
          ∀ name, w.resolve name ≠ w.resolve key →
            contentsOf w s1 name = contentsOf w s name) ∨
        (w.WriteFile s.files key body.data = WriteOutcome.discarded ∧
          s1.files = s.files)) := by
  unfold downloadObject writeToFile ioutil.ReadAll ioutil.WriteFile at hok
  cases hg : w.GetObject key with
  | error err => simp [hg] at hok
  | ok body =>
    obtain ⟨data, err⟩ := body
    cases err with
    | some e => simp [hg] at hok
    | none =>
      cases hw : w.WriteFile s.files key data with
      | ok =>
        simp only [hg, hw, Prod.mk.injEq, true_and] at hok
        subst hok
        refine ⟨⟨data, none⟩, rfl, rfl, Or.inl ⟨hw, by simp [contentsOf],
          fun path hne => by simp [Function.update, hne],
          fun name hne => by simp [contentsOf, Function.update, hne]⟩⟩
      | discarded =>
        simp only [hg, hw, Prod.mk.injEq, true_and] at hok
        subst hok
        exact ⟨⟨data, none⟩, rfl, rfl, Or.inr ⟨hw, rfl⟩⟩
      | openFailed e => simp [hg, hw] at hok
      | writeFailed e n => simp [hg, hw] at hok

/-- C6, witness: `a.txt` holds the byte 9; a successful download of the key `./a.txt`
leaves the bytes 1, 2, 3 of the object in the file that both `./a.txt` and `a.txt` denote,
and `b.txt`, another file, is as it was. -/
theorem downloadObject_success_writes_denoted_file_witness :
    (downloadObject posixWorld "./a.txt" ⟨oldFiles, []⟩).1 = none ∧
    contentsOf posixWorld (downloadObject posixWorld "./a.txt" ⟨oldFiles, []⟩).2 "./a.txt" =
      some [1, 2, 3] ∧
    contentsOf posixWorld (downloadObject posixWorld "./a.txt" ⟨oldFiles, []⟩).2 "b.txt" =
      contentsOf posixWorld ⟨oldFiles, []⟩ "b.txt" := by
  have h1 : (downloadObject posixWorld "./a.txt" ⟨oldFiles, []⟩).1 = none := by
    simp [downloadObject, writeToFile, ioutil.ReadAll, ioutil.WriteFile, posixWorld]
  obtain ⟨body, hg, _, hcase⟩ := downloadObject_success_writes_denoted_file posixWorld "./a.txt"
    ⟨oldFiles, []⟩ (downloadObject posixWorld "./a.txt" ⟨oldFiles, []⟩).2 (by rw [← h1])
  have hb : body = ⟨[1, 2, 3], none⟩ := by
    simp only [posixWorld, Except.ok.injEq] at hg
    exact hg.symm
  rcases hcase with ⟨_, hkey, _, hframe⟩ | ⟨hdev, _⟩
  · exact ⟨h1, hkey.trans (by rw [hb]), hframe "b.txt" (by simp [posixWorld])⟩
  · simp [posixWorld] at hdev

/-- C7, as stated, fails. With the bucket unchanged and every backend call succeeding, a
second run that starts 23 hours after the first finds `a.txt` 24 hours old and downloads
nothing, where the first run downloaded `a.txt`. And on a full disk of 4 bytes, with the
clock unchanged, the first run leaves 1 byte of the object in `a.txt` and the second run
leaves 3. -/
theorem second_run_differs_from_first :
    (worldAt (scenarioNow + 82800000000000) [Except.ok [objA]]).pages =
      (worldOf [Except.ok [objA]]).pages ∧
    (worldAt (scenarioNow + 82800000000000) [Except.ok [objA]]).GetObject =
      (worldOf [Except.ok [objA]]).GetObject ∧
    fetchedKeys (main (worldOf [Except.ok [objA]]) noFiles).2.trace = ["a.txt"] ∧
    fetchedKeys (main (worldAt (scenarioNow + 82800000000000) [Except.ok [objA]])
      (main (worldOf [Except.ok [objA]]) noFiles).2.files).2.trace = [] ∧
    (main smallDiskWorld fullDisk).2.files "a.txt" = some [1] ∧
    (main smallDiskWorld (main smallDiskWorld fullDisk).2.files).2.files "a.txt" =
      some [1, 2, 3] := by
  have ha : withinLast24Hours scenarioNow objA = true := by
    simp [withinLast24Hours, objA, scenarioNow]
  have hd : withinLast24Hours scenarioNow objD = true := by
    simp [withinLast24Hours, objD, scenarioNow]
  have ha2 : withinLast24Hours (scenarioNow + 82800000000000) objA = false := by
    simp [withinLast24Hours, objA, scenarioNow]
  have hka : aws.ToString objA.Key = "a.txt" := rfl
  have hkd : aws.ToString objD.Key = "d.txt" := rfl
  refine ⟨rfl, rfl, ?_, ?_, ?_, ?_⟩
  · simp [main, worldOf, pageLoop, rangeContents, processObject_eq, Time.UTC, ha, hka,
      downloadObject, writeToFile, ioutil.ReadAll, ioutil.WriteFile, fetchedKeys]
  · simp [main, worldAt, pageLoop, rangeContents, processObject_eq, Time.UTC, ha2, fetchedKeys]
  · simp [main, smallDiskWorld, fullDisk, noFiles, sizeAt, pageLoop, rangeContents,
      processObject_eq, Time.UTC, ha, hd, hka, hkd, downloadObject, writeToFile, ioutil.ReadAll,
      ioutil.WriteFile, Function.update]
  · simp [main, smallDiskWorld, fullDisk, noFiles, sizeAt, pageLoop, rangeContents,
      processObject_eq, Time.UTC, ha, hd, hka, hkd, downloadObject, writeToFile, ioutil.ReadAll,
      ioutil.WriteFile, Function.update]

/-- C7, amended. Let a second run start on the files the first run left, with the bucket
and the resolution of names unchanged, the configuration loading and every page listed in
both runs, and a clock under which the same listed objects are less than 24 hours old. If
every download of the first run and every download of the second stores its object, the
second run ends normally, makes the calls of the first run in the same order (the same
`GetObject` requests and the same `WriteFile` calls: nothing is skipped for being there
already) and leaves the files as the first run left them. -/
theorem second_run_repeats_first (w1 w2 : World) (files : String → Option (List UInt8))
    (contents : List (List Object))
    (hcfg1 : w1.loadConfig = none) (hcfg2 : w2.loadConfig = none)
    (hpages1 : w1.pages = contents.map Except.ok) (hpages2 : w2.pages = contents.map Except.ok)
    (hbucket : w2.GetObject = w1.GetObject) (hresolve : w2.resolve = w1.resolve)
    (hclock : ∀ o ∈ contents.flatten,
      withinLast24Hours w2.now o = withinLast24Hours w1.now o)
    (hrun1 : runStores w1 w1.now contents ⟨files, []⟩ = true)
    (hrun2 : runStores w2 w2.now contents ⟨(main w1 files).2.files, []⟩ = true) :
    (main w2 (main w1 files).2.files).1 = ExitStatus.ok ∧
    (main w2 (main w1 files).2.files).2.trace = (main w1 files).2.trace ∧
    (main w2 (main w1 files).2.files).2.files = (main w1 files).2.files := by
  have hm1 : main w1 files = pageLoop w1 w1.now (contents.map Except.ok) ⟨files, []⟩ := by
    unfold main
    simp only [hcfg1, hpages1, Time.UTC]
  have hm2 : ∀ f, main w2 f = pageLoop w2 w2.now (contents.map Except.ok) ⟨f, []⟩ := by
    intro f
    unfold main
    simp only [hcfg2, hpages2, Time.UTC]
  have hkeys : (contents.flatten.filter (withinLast24Hours w2.now)).map
      (fun o => aws.ToString o.Key) =
      (contents.flatten.filter (withinLast24Hours w1.now)).map (fun o => aws.ToString o.Key) := by
    congr 1
    exact List.filter_congr hclock
  obtain ⟨calls, hcalls⟩ := pageLoop_trace_congr w1 w2 w1.now w2.now hbucket contents hclock
  have hf1 := pageLoop_files w1 w1.now contents ⟨files, []⟩ hrun1
  rw [hm1] at hrun2
  have hf2 := pageLoop_files w2 w2.now contents _ hrun2
  rw [hm2, hm1]
  refine ⟨(pageLoop_ok_pages w2 w2.now contents [] _).1, ?_, ?_⟩
  · rw [(hcalls _).2, (hcalls _).1]
  · rw [hf2, hf1, hkeys, storeAll_congr w1 w2 hbucket hresolve]
    exact (storeAll_overwrites w1 _).idempotent files

/-- C7, witness: `a.txt`, 1 hour old, and `b.txt`, 48 hours old, are listed; the working
directory holds an older `a.txt`. The first run downloads `a.txt` over it, and a second
run one hour later downloads `a.txt` again and leaves the same files. -/
theorem second_run_repeats_first_witness :
    (main (worldOf [Except.ok [objA, objB]]) oldFiles).2.trace =
      [Event.NextPage, Event.GetObject "a.txt", Event.WriteFile "a.txt" [1, 2, 3]] ∧
    (main (worldOf [Except.ok [objA, objB]]) oldFiles).2.files "a.txt" = some [1, 2, 3] ∧
    (main (worldAt (scenarioNow + 3600000000000) [Except.ok [objA, objB]])
      (main (worldOf [Except.ok [objA, objB]]) oldFiles).2.files).1 = ExitStatus.ok ∧
    (main (worldAt (scenarioNow + 3600000000000) [Except.ok [objA, objB]])
      (main (worldOf [Except.ok [objA, objB]]) oldFiles).2.files).2.trace =
      (main (worldOf [Except.ok [objA, objB]]) oldFiles).2.trace ∧
    (main (worldAt (scenarioNow + 3600000000000) [Except.ok [objA, objB]])
      (main (worldOf [Except.ok [objA, objB]]) oldFiles).2.files).2.files =
      (main (worldOf [Except.ok [objA, objB]]) oldFiles).2.files := by
  have ha : withinLast24Hours scenarioNow objA = true := by
    simp [withinLast24Hours, objA, scenarioNow]
  have hb : withinLast24Hours scenarioNow objB = false := by
    simp [withinLast24Hours, objB, scenarioNow]
  have ha2 : withinLast24Hours (scenarioNow + 3600000000000) objA = true := by
    simp [withinLast24Hours, objA, scenarioNow]
  have hb2 : withinLast24Hours (scenarioNow + 3600000000000) objB = false := by
    simp [withinLast24Hours, objB, scenarioNow]
  have hka : aws.ToString objA.Key = "a.txt" := rfl
  have h := second_run_repeats_first (worldOf [Except.ok [objA, objB]])
    (worldAt (scenarioNow + 3600000000000) [Except.ok [objA, objB]]) oldFiles
    [[objA, objB]] rfl rfl rfl rfl rfl rfl
    (by
      intro o ho
      simp only [List.flatten_cons, List.flatten_nil, List.append_nil, List.mem_cons,
        List.mem_singleton, List.not_mem_nil, or_false] at ho
      rcases ho with rfl | rfl
      · simp only [worldOf, worldAt]; rw [ha, ha2]
      · simp only [worldOf, worldAt]; rw [hb, hb2])
    (by simp [runStores, pageStores, stores, worldOf, ha, hb])
    (by simp [runStores, pageStores, stores, worldAt, ha2, hb2])
  refine ⟨?_, ?_, h.1, h.2.1, h.2.2⟩
  · simp [main, worldOf, pageLoop, rangeContents, processObject_eq, Time.UTC, ha, hb, hka,
      downloadObject, writeToFile, ioutil.ReadAll, ioutil.WriteFile]
  · simp [main, worldOf, pageLoop, rangeContents, processObject_eq, Time.UTC, ha, hb, hka,
      downloadObject, writeToFile, ioutil.ReadAll, ioutil.WriteFile]

/-- C8, at the failing input. `GetObject` succeeds and the body fails while it is read:
`downloadObject` returns the read error, an error that no call to `GetObject` produced, so
not every error it returns comes from the call to `GetObject`. -/
theorem downloadObject_error_not_from_GetObject :
    (downloadObject readFailsWorld "a.txt" ⟨noFiles, []⟩).1 = some "unexpected EOF" ∧
    readFailsWorld.GetObject "a.txt" = Except.ok ⟨[1, 2], some "unexpected EOF"⟩ ∧
    ¬ ∀ (w : World) (key : String) (s : State) (e : String),
        (downloadObject w key s).1 = some e → w.GetObject key = Except.error e := by
  refine ⟨rfl, rfl, fun h => ?_⟩
  have := h readFailsWorld "a.txt" ⟨noFiles, []⟩ "unexpected EOF" rfl
  simp [readFailsWorld] at this

/-- C9. When the reading of the stream fails, `writeToFile` returns the read error and has
not called `WriteFile`: the files and the trace are as they were. -/
theorem writeToFile_read_error_leaves_files (w : World) (filename : String) (stream : Stream)
    (s : State) (e : String) (hread : stream.err = some e) :
    writeToFile w filename stream s = (some e, s) := by
  unfold writeToFile ioutil.ReadAll
  rw [hread]

/-- C9, witness: a stream that breaks after two bytes leaves an existing `a.txt` as it
was. -/
theorem writeToFile_read_error_leaves_files_witness :
    (⟨[1, 2], some "unexpected EOF"⟩ : Stream).err = some "unexpected EOF" ∧
    writeToFile (worldOf []) "a.txt" ⟨[1, 2], some "unexpected EOF"⟩
      ⟨Function.update noFiles "a.txt" (some [9]), []⟩ =
      (some "unexpected EOF", ⟨Function.update noFiles "a.txt" (some [9]), []⟩) :=
  ⟨rfl, writeToFile_read_error_leaves_files (worldOf []) "a.txt"
    ⟨[1, 2], some "unexpected EOF"⟩ ⟨Function.update noFiles "a.txt" (some [9]), []⟩
    "unexpected EOF" rfl⟩

end S3Backup
